import Mathlib

/-!
Verification development for the `tree` CLI (directory tree printer with
ignore-pattern support and a recursive `.tree_ignore` sweeper).

The definitions below are a shallow embedding of the Rust sources:
  * `src/tree_printer.rs` — pattern filter (`should_ignore`), default
    ignore-file seeding (`create_default_ignore_file`), the recursive
    renderer (`print_directory_tree_recursive_short`) and the top-level
    `print_directory_tree` pipeline;
  * `src/main.rs` — the recursive sweeper `clear_ignore_files`.

Filesystem state is modelled explicitly: directory trees become inductive
values, file stores become functions from names to optional contents, and
the fallible filesystem primitives (`fs::remove_file`, reading a directory)
are modelled with explicit success flags on the nodes, following POSIX
semantics (unlink succeeds on regular files and on symbolic links — it
removes the link itself — and fails with EISDIR on directories).
-/

/-! ### The local-pattern filter (src/tree_printer.rs, `should_ignore`)

Rust:
  entry.file_name().to_str().is_some_and(|file_name|
      ignore_patterns.iter().any(|pattern| pattern == file_name))

The argument models `entry.file_name().to_str()`: `some s` when the OS
file name is valid UTF-8, `none` otherwise. -/
def should_ignore (file_name : Option String) (ignore_patterns : List String) : Bool :=
  file_name.any (fun fn => ignore_patterns.any (fun pattern => pattern == fn))

/-! ### The sweeper (src/main.rs, `clear_ignore_files`)

The sweeper walks the whole tree with `walkdir` (symbolic links are not
followed), and for every entry whose file name is exactly `.tree_ignore`
it calls `fs::remove_file`.  Failure injection is explicit in the model:
a regular file carries a `removable` flag (`fs::remove_file` fails on it
when the flag is false), and a directory carries a `readable` flag
(enumerating its children fails when the flag is false; `walkdir` then
reports one error for the directory and never visits its children).
`fs::remove_file` on a symbolic link removes the link itself; on a
directory it always fails (EISDIR). -/
inductive FsNode where
  | file (name : String) (removable : Bool)
  | symlink (name : String)
  | dir (name : String) (readable : Bool) (children : List FsNode)

def FsNode.name : FsNode → String
  | .file n _ => n
  | .symlink n => n
  | .dir n _ _ => n

def FsNode.isDirNode : FsNode → Bool
  | .dir _ _ _ => true
  | _ => false

/-- One pass of the sweep loop over a node and (recursively) everything
below it.  Returns `(remaining, removed, errors)`: what is left of the
node on disk (`none` when the node itself was deleted), how many
`fs::remove_file` calls succeeded (`count` in the Rust code), and how
many warnings were pushed to `errors` (failed removals and enumeration
failures).  Transcribed from the `for entry in walkdir::WalkDir::new(path)`
loop of `clear_ignore_files` (src/main.rs lines 55-89). -/
def sweepNode : FsNode → Option FsNode × Nat × Nat
  | .file n rm =>
    if n == ".tree_ignore" then
      (if rm then (none, 1, 0) else (some (.file n rm), 0, 1))
    else (some (.file n rm), 0, 0)
  | .symlink n =>
    if n == ".tree_ignore" then (none, 1, 0) else (some (.symlink n), 0, 0)
  | .dir n rd cs =>
    let base : Nat := if n == ".tree_ignore" then 1 else 0
    if rd then
      let rs := cs.attach.map (fun x => sweepNode x.1)
      (some (.dir n rd (rs.filterMap (fun r => r.1))),
       (rs.map (fun r => r.2.1)).sum,
       base + (rs.map (fun r => r.2.2)).sum)
    else
      (some (.dir n rd cs), 0, base + 1)
termination_by t => sizeOf t
decreasing_by
  have h1 := List.sizeOf_lt_of_mem x.2
  simp only [FsNode.dir.sizeOf_spec]
  omega

def sweepRemaining (t : FsNode) : Option FsNode := (sweepNode t).1

def sweepRemoved (t : FsNode) : Nat := (sweepNode t).2.1

def sweepErrors (t : FsNode) : Nat := (sweepNode t).2.2

/-- `clear_ignore_files` (src/main.rs lines 38-107): after validating that
the root is a directory it runs the walk loop; every failure inside the
loop is logged and the loop continues, so the function itself returns
`Ok` whenever validation passed.  The model keeps the observables
(remaining tree, removal count, warning count) in the `ok` payload. -/
def clear_ignore_files (root : FsNode) : Except String (Option FsNode × Nat × Nat) :=
  if root.isDirNode then Except.ok (sweepNode root) else Except.error "not a directory"

/-- Number of regular files in the tree whose name is exactly
`.tree_ignore` (the N of claim C6 as written — symbolic links bearing
the marker name are not counted here). -/
def countMarkerFiles : FsNode → Nat
  | .file n _ => if n == ".tree_ignore" then 1 else 0
  | .symlink _ => 0
  | .dir n rd cs => (cs.attach.map (fun x => countMarkerFiles x.1)).sum
termination_by t => sizeOf t
decreasing_by
  have h1 := List.sizeOf_lt_of_mem x.2
  simp only [FsNode.dir.sizeOf_spec]
  omega

/-- Number of non-directory entries — regular files and symbolic links —
whose name is exactly `.tree_ignore`: these are precisely the entries a
warning-free sweep deletes and counts. -/
def countMarkerNonDirs : FsNode → Nat
  | .file n _ => if n == ".tree_ignore" then 1 else 0
  | .symlink n => if n == ".tree_ignore" then 1 else 0
  | .dir n rd cs => (cs.attach.map (fun x => countMarkerNonDirs x.1)).sum
termination_by t => sizeOf t
decreasing_by
  have h1 := List.sizeOf_lt_of_mem x.2
  simp only [FsNode.dir.sizeOf_spec]
  omega

/-- Whether any node anywhere in the tree is named exactly `.tree_ignore`. -/
def hasMarkerNamed : FsNode → Bool
  | .file n _ => n == ".tree_ignore"
  | .symlink n => n == ".tree_ignore"
  | .dir n rd cs => n == ".tree_ignore" || cs.attach.any (fun x => hasMarkerNamed x.1)
termination_by t => sizeOf t
decreasing_by
  have h1 := List.sizeOf_lt_of_mem x.2
  simp only [FsNode.dir.sizeOf_spec]
  omega

/-- The situation in which a sweep completes without a single warning:
every directory is readable and none bears the marker name (removal of a
marker-named directory would fail and be logged), and every marker-named
regular file can actually be removed.  Marker-named symbolic links are
allowed: unlinking them always succeeds. -/
def goodSweepTree : FsNode → Bool
  | .file n rm => !(n == ".tree_ignore") || rm
  | .symlink n => true
  | .dir n rd cs =>
    !(n == ".tree_ignore") && rd && cs.attach.all (fun x => goodSweepTree x.1)
termination_by t => sizeOf t
decreasing_by
  have h1 := List.sizeOf_lt_of_mem x.2
  simp only [FsNode.dir.sizeOf_spec]
  omega

/-- Declarative description of what a warning-free sweep leaves behind,
written from the amended C6: exactly the non-directory entries named
`.tree_ignore` — regular files and symbolic links — disappear,
everything else stays. -/
def eraseMarkerEntries : FsNode → Option FsNode
  | .file n rm => if n == ".tree_ignore" then none else some (.file n rm)
  | .symlink n => if n == ".tree_ignore" then none else some (.symlink n)
  | .dir n rd cs => some (.dir n rd (cs.attach.filterMap (fun x => eraseMarkerEntries x.1)))
termination_by t => sizeOf t
decreasing_by
  have h1 := List.sizeOf_lt_of_mem x.2
  simp only [FsNode.dir.sizeOf_spec]
  omega

/-- What remains of a node after a sweep, written from the amended C7:
a directory is never deleted — when readable its children are swept
recursively, when unreadable they are left untouched; a regular file is
deleted exactly when it bears the marker name and its removal succeeds;
a symbolic link is deleted exactly when it bears the marker name
(unlinking a link always succeeds); every differently-named entry
survives unchanged. -/
def sweepSpecRemaining : FsNode → Option FsNode
  | .file n rm => if n == ".tree_ignore" && rm then none else some (.file n rm)
  | .symlink n => if n == ".tree_ignore" then none else some (.symlink n)
  | .dir n rd cs =>
    some (.dir n rd
      (if rd then cs.attach.filterMap (fun x => sweepSpecRemaining x.1) else cs))
termination_by t => sizeOf t
decreasing_by
  have h1 := List.sizeOf_lt_of_mem x.2
  simp only [FsNode.dir.sizeOf_spec]
  omega

/-! ### The renderer (src/tree_printer.rs)

Directory contents are modelled as an inductive tree; an `Entry` is one
result of `fs::read_dir` together with everything below it.  A name is the
`to_string_lossy` form of the OS file name.  Symbolic links do not occur
in this model (the renderer treats a link to a directory exactly like a
directory; the dedicated model for claim C10 covers that aspect). -/
inductive Entry where
  | file (name : String)
  | dir (name : String) (children : List Entry)

def Entry.name : Entry → String
  | .file n => n
  | .dir n _ => n

def Entry.isDir : Entry → Bool
  | .file _ => false
  | .dir _ _ => true

def Entry.kids : Entry → List Entry
  | .file _ => []
  | .dir _ cs => cs

/-- The glyph in front of the entry name: `"└── "` for the last entry of a
level, `"├── "` otherwise (src/tree_printer.rs lines 151-155). -/
def connector (is_last : Bool) : String :=
  if is_last then "└── " else "├── "

/-- The segment appended to the accumulated path indentation before
recursing into a subdirectory: four blanks after a last entry, a vertical
bar and three blanks otherwise (same lines of the source). -/
def continuation (is_last : Bool) : String :=
  if is_last then "    " else "│   "

/-- The comparator passed to `entries.sort_by` (src/tree_printer.rs lines
134-143): directories strictly before files, and inside one group the
byte-wise comparison of the OS file names, which on UTF-8 names agrees
with the character-wise comparison of the strings. -/
def entryCmp (a b : Entry) : Ordering :=
  match a.isDir, b.isDir with
  | true, false => Ordering.lt
  | false, true => Ordering.gt
  | _, _ => compare a.name b.name

/-- `a` may stay in front of `b` in the ascending order produced by
`sort_by` with comparator `entryCmp`. -/
def entryLe (a b : Entry) : Prop := entryCmp a b ≠ Ordering.gt

instance : DecidableRel entryLe := fun a b => by
  unfold entryLe
  infer_instance

/-- `slice::sort_by` is a stable ascending sort; its result is the unique
stable sort by `entryLe`, here computed by the stable insertion sort of
the mathematical library. -/
def sortEntries (es : List Entry) : List Entry := List.insertionSort entryLe es

/-- The recursive renderer `print_directory_tree_recursive_short`
(src/tree_printer.rs lines 112-174).  Arguments: the `ignored_paths`
slice, the path of the directory being rendered (as the list of name
segments below the root), the accumulated indentation, and the children
of the directory (the result of `fs::read_dir`).  The returned list holds
one string per `writeln!`.  The enumeration index `i` of the source loop
is reproduced with `List.enum`; the `attach` wrapper only carries the
membership facts needed for termination. -/
def print_directory_tree_recursive_short (ignored_paths : List (List String))
    (path : List String) (pre : String) (cs : List Entry) : List String :=
  if ignored_paths.contains path then []
  else
    let sorted := sortEntries (cs.filter (fun e => !(ignored_paths.contains (path ++ [e.name]))))
    sorted.enum.attach.flatMap (fun x =>
      let is_last : Bool := x.1.1 == sorted.length - 1
      (pre ++ connector is_last ++ x.1.2.name) ::
        (match hx : x.1.2 with
         | .dir nm cs2 =>
           print_directory_tree_recursive_short ignored_paths (path ++ [nm])
             (pre ++ continuation is_last) cs2
         | .file _ => []))
termination_by sizeOf cs
decreasing_by
  have hmem : x.1.2 ∈ sorted := by
    have h1 := List.mem_enum_iff_getElem?.mp x.2
    exact List.getElem?_mem h1
  have hmem2 : x.1.2 ∈ cs := by
    have h2 := (List.mem_insertionSort entryLe).mp hmem
    exact (List.mem_filter.mp h2).1
  have h3 : sizeOf x.1.2 < sizeOf cs := List.sizeOf_lt_of_mem hmem2
  rw [hx] at h3
  have h4 : sizeOf cs2 < sizeOf (Entry.dir nm cs2) := by
    simp [Entry.dir.sizeOf_spec]
  omega

/-- The walk of `WalkBuilder::new(path).git_ignore(false).hidden(false)`
(src/tree_printer.rs lines 207-215): every path of the tree is yielded,
the root first. -/
def walkAllFrom (p : List String) : Entry → List (List String)
  | .file _ => [p]
  | .dir _ cs => p :: cs.attach.flatMap (fun x => walkAllFrom (p ++ [x.1.name]) x.1)
termination_by e => sizeOf e
decreasing_by
  have h1 := List.sizeOf_lt_of_mem x.2
  simp only [Entry.dir.sizeOf_spec]
  omega

/-- The walk of the filtered builder (src/tree_printer.rs lines 195-204):
`filter_entry(move |entry| !should_ignore(entry, &ignore_patterns))`.
Following the walker of the `ignore` crate, the predicate is never applied
to the root of the walk (its `skip_entry` returns `false` at depth 0), and
a directory that fails the predicate is pruned together with its whole
subtree (`skip_current_dir`).  The version-control ignore rules play no
role in this model (the modelled trees carry no `.gitignore` files). -/
def walkFilteredFrom (ignore_patterns : List String) (p : List String) :
    Entry → List (List String)
  | .file _ => [p]
  | .dir _ cs =>
    p :: cs.attach.flatMap (fun x =>
      if should_ignore (some x.1.name) ignore_patterns then []
      else walkFilteredFrom ignore_patterns (p ++ [x.1.name]) x.1)
termination_by e => sizeOf e
decreasing_by
  have h1 := List.sizeOf_lt_of_mem x.2
  simp only [Entry.dir.sizeOf_spec]
  omega

/-- The symmetric difference of the two walks, as a collection of paths
(src/tree_printer.rs lines 217-221).  The `HashSet` iteration order is
irrelevant: the renderer only ever tests membership in this collection. -/
def walkSymmDiff (A B : List (List String)) : List (List String) :=
  A.filter (fun q => !(B.contains q)) ++ B.filter (fun q => !(A.contains q))

/-- The `diff` list handed to the recursive renderer by
`print_directory_tree` for a root with contents `t` and loaded pattern
list `ignore_patterns`. -/
def treeDiff (ignore_patterns : List String) (t : Entry) : List (List String) :=
  walkSymmDiff (walkAllFrom [] t) (walkFilteredFrom ignore_patterns [] t)

/-- `print_directory_tree` (src/tree_printer.rs lines 179-227) after the
ignore file has been seeded and the patterns loaded: the header line with
the display form of the root path, then the recursive rendering of the
root directory (whose path is `[]`) against the symmetric difference of
the two walks. -/
def print_directory_tree (rootDisplay : String) (ignore_patterns : List String)
    (t : Entry) : List String :=
  rootDisplay ::
    print_directory_tree_recursive_short (treeDiff ignore_patterns t) [] "" t.kids

/-! ### Seeding of the ignore file (src/tree_printer.rs lines 51-109 and
185-192)

Only the files directly inside the rendered root matter here; the store
is a function from file names to optional contents. -/
def DirFiles : Type := String → Option String

/-- An apostrophe, kept out of the literals below. -/
def squote : String := String.mk [Char.ofNat 39]

/-- The default template written by `create_default_ignore_file`
(src/tree_printer.rs lines 55-100), byte for byte. -/
def default_content : String :=
  "# Tree ignore patterns configuration file\n" ++
  "# This file controls which directories and files are ignored when printing the tree\n" ++
  "# Add one pattern per line (exact name matches only)\n" ++
  "# Lines starting with # are comments and will be ignored\n" ++
  "#\n" ++
  "# You can edit this file to customize which items are ignored\n" ++
  "# Use " ++ squote ++ "tree --clear" ++ squote ++ " to remove this configuration file\n" ++
  "\n" ++
  "# Build and compilation outputs\ntarget\nbuild\ndist\nout\n" ++
  "\n" ++
  "# Dependencies and package managers\nnode_modules\nvendor\n.pnpm-store\n" ++
  "\n" ++
  "# Version control\n.git\n.svn\n.hg\n" ++
  "\n" ++
  "# IDE and editor files\n.vscode\n.idea\n.idea.old\n*.swp\n*.swo\n*~\n" ++
  "\n" ++
  "# OS generated files\n.DS_Store\nThumbs.db\n" ++
  "\n" ++
  "# Temporary and cache directories\ntmp\ntemp\ncache\n.cache\n" ++
  "\n" ++
  "# Legacy or backup directories\nold_do_not_use\nbackup\n"

/-- `fs::write`: create the file or truncate and overwrite it. -/
def writeFile (fs : DirFiles) (nm c : String) : DirFiles :=
  fun k => if k = nm then some c else fs k

/-- `create_default_ignore_file` writes the default template to
`.tree_ignore` inside the given directory. -/
def create_default_ignore_file (fs : DirFiles) : DirFiles :=
  writeFile fs ".tree_ignore" default_content

/-- The seeding step of `print_directory_tree` (src/tree_printer.rs lines
185-189): `if !ignore_file_path.exists() { create_default_ignore_file(path)? }`. -/
def print_directory_tree_seed (fs : DirFiles) : DirFiles :=
  if (fs ".tree_ignore").isSome then fs else create_default_ignore_file fs

/-! ### The recursion guard of the renderer (claim C10)

`print_directory_tree_recursive_short` recurses into an entry precisely
when `entry_path.is_dir()` holds; `Path::is_dir` queries the metadata of
the path with symbolic links resolved.  To talk about link cycles, the
filesystem is viewed abstractly: every path (list of name segments below
the root) has a kind, and `read_dir` on it yields a list of child names
(the contents of the resolved directory). -/
inductive PathKind where
  | file
  | directory
  | symlinkToDir
  | symlinkToOther
deriving DecidableEq

/-- `Path::is_dir`: true for a directory and for a symbolic link whose
resolved target is a directory. -/
def pathIsDir : PathKind → Bool
  | .directory => true
  | .symlinkToDir => true
  | _ => false

structure FsView where
  kindAt : List String → PathKind
  childrenAt : List String → List String

/-- One recursive call of the renderer on view `fs` with ignored list
`ign`: rendering directory `p` recurses into `q` when `q` is a child of
`p` that survives the `ignored_paths` filter and whose path resolves to a
directory (src/tree_printer.rs lines 119-121, 127-130 and 161-170). -/
def rendererCallStep (fs : FsView) (ign : List (List String))
    (p q : List String) : Prop :=
  ¬ p ∈ ign ∧ ∃ c, c ∈ fs.childrenAt p ∧ q = p ++ [c] ∧ ¬ q ∈ ign ∧
    pathIsDir (fs.kindAt q) = true

/-- An infinite chain of nested recursive calls starting at `root` — the
situation in which the renderer does not terminate. -/
def infiniteCallChain (fs : FsView) (ign : List (List String))
    (root : List String) : Prop :=
  ∃ f : ℕ → List String, f 0 = root ∧ ∀ n, rendererCallStep fs ign (f n) (f (n + 1))

/-- A filesystem view with a single directory symbolic link that loops
back to the root: the root directory holds one entry `loop`, a link to
the root itself, so every path `loop/loop/…` resolves to the root
directory again. -/
def loopView : FsView where
  kindAt := fun p => if p = [] then PathKind.directory else PathKind.symlinkToDir
  childrenAt := fun _ => ["loop"]

/-- The order claimed by the spec for each rendered level: directories
before files, then case-sensitive lexicographic order of base names
inside each group. -/
def twoKeyOrder (a b : Entry) : Prop :=
  (a.isDir = true ∧ b.isDir = false) ∨ (a.isDir = b.isDir ∧ a.name ≤ b.name)

/-- Fuel-bounded executable twin of
`print_directory_tree_recursive_short`, used to evaluate the renderer on
concrete trees (the well-founded recursion of the faithful definition
does not reduce inside the kernel).  `renderFuel_spec` below proves the
two functions equal whenever the fuel dominates the size of the input. -/
def renderFuel : Nat → List (List String) → List String → String → List Entry → List String
  | 0, _, _, _, _ => []
  | fuel + 1, ignored_paths, path, pre, cs =>
    if ignored_paths.contains path then []
    else
      let sorted := sortEntries (cs.filter (fun e => !(ignored_paths.contains (path ++ [e.name]))))
      sorted.enum.flatMap (fun x =>
        (pre ++ connector (x.1 == sorted.length - 1) ++ x.2.name) ::
          (if x.2.isDir then
            renderFuel fuel ignored_paths (path ++ [x.2.name])
              (pre ++ continuation (x.1 == sorted.length - 1)) x.2.kids
          else []))

/-! ### General helper lemmas -/

theorem attach_flatMap {α β : Type} (l : List α) (g : α → List β) :
    l.attach.flatMap (fun x => g x.1) = l.flatMap g := by
  conv_rhs => rw [← List.attach_map_subtype_val l]
  rw [List.flatMap_map]

theorem flatMap_congr_mem {α β : Type} {l : List α} {f g : α → List β}
    (h : ∀ a ∈ l, f a = g a) : l.flatMap f = l.flatMap g := by
  induction l with
  | nil => rfl
  | cons a t ih =>
    rw [List.flatMap_cons, List.flatMap_cons, h a (List.mem_cons_self a t),
      ih (fun b hb => h b (List.mem_cons_of_mem a hb))]

theorem list_sizeOf_pos {α : Type} [SizeOf α] (l : List α) : 1 ≤ sizeOf l := by
  cases l with
  | nil => simp
  | cons a t => simp only [List.cons.sizeOf_spec]; omega

theorem entry_sizeOf_kids_lt (e : Entry) : sizeOf e.kids < sizeOf e := by
  cases e with
  | file n =>
    cases n with
    | mk data =>
      simp only [Entry.kids, Entry.file.sizeOf_spec, List.nil.sizeOf_spec,
        String.mk.sizeOf_spec]
      have h := list_sizeOf_pos data
      omega
  | dir n cs =>
    simp only [Entry.kids, Entry.dir.sizeOf_spec]
    omega

/-- Attach-free, match-free unfolding equation for the renderer in the
case where the directory being rendered is not itself on the ignored
list. -/
theorem print_rec_unfold (ign : List (List String)) (path : List String)
    (pre : String) (cs : List Entry) (sorted : List Entry)
    (hs : sorted = sortEntries (cs.filter (fun e => !(ign.contains (path ++ [e.name])))))
    (hc : ¬ ign.contains path = true) :
    print_directory_tree_recursive_short ign path pre cs =
      sorted.enum.flatMap (fun x =>
        (pre ++ connector (x.1 == sorted.length - 1) ++ x.2.name) ::
          (if x.2.isDir then
            print_directory_tree_recursive_short ign (path ++ [x.2.name])
              (pre ++ continuation (x.1 == sorted.length - 1)) x.2.kids
          else [])) := by
  subst hs
  conv_lhs => rw [print_directory_tree_recursive_short]
  rw [if_neg hc]
  trans (sortEntries (cs.filter (fun e => !(ign.contains (path ++ [e.name]))))).enum.attach.flatMap
      (fun x =>
        (pre ++ connector (x.1.1 == (sortEntries (cs.filter (fun e => !(ign.contains (path ++ [e.name]))))).length - 1) ++ x.1.2.name) ::
          (if x.1.2.isDir then
            print_directory_tree_recursive_short ign (path ++ [x.1.2.name])
              (pre ++ continuation (x.1.1 == (sortEntries (cs.filter (fun e => !(ign.contains (path ++ [e.name]))))).length - 1)) x.1.2.kids
          else []))
  · apply flatMap_congr_mem
    rintro ⟨⟨i, e⟩, hm⟩ _
    cases e with
    | file n => rfl
    | dir n cs2 => rfl
  · exact attach_flatMap _
      (fun p : Nat × Entry =>
        (pre ++ connector (p.1 == (sortEntries (cs.filter (fun e => !(ign.contains (path ++ [e.name]))))).length - 1) ++ p.2.name) ::
          (if p.2.isDir then
            print_directory_tree_recursive_short ign (path ++ [p.2.name])
              (pre ++ continuation (p.1 == (sortEntries (cs.filter (fun e => !(ign.contains (path ++ [e.name]))))).length - 1)) p.2.kids
          else []))

theorem mem_sortEntries {e : Entry} {l : List Entry} : e ∈ sortEntries l ↔ e ∈ l := by
  unfold sortEntries
  exact List.mem_insertionSort entryLe

theorem renderFuel_spec : ∀ (fuel : Nat) (ign : List (List String)) (path : List String)
    (pre : String) (cs : List Entry), sizeOf cs ≤ fuel →
    renderFuel fuel ign path pre cs = print_directory_tree_recursive_short ign path pre cs := by
  intro fuel
  induction fuel with
  | zero =>
    intro ign path pre cs h
    have h0 := list_sizeOf_pos cs
    omega
  | succ fuel ih =>
    intro ign path pre cs h
    by_cases hc : ign.contains path = true
    · rw [renderFuel, if_pos hc]
      conv_rhs => rw [print_directory_tree_recursive_short]
      rw [if_pos hc]
    · rw [renderFuel, if_neg hc, print_rec_unfold ign path pre cs _ rfl hc]
      apply flatMap_congr_mem
      rintro ⟨i, e⟩ hm
      have hmem : e ∈ cs := by
        have h1 := List.mem_enum_iff_getElem?.mp hm
        have h2 := List.getElem?_mem h1
        have h3 := mem_sortEntries.mp h2
        exact (List.mem_filter.mp h3).1
      have hsz : sizeOf e.kids ≤ fuel := by
        have h4 := List.sizeOf_lt_of_mem hmem
        have h5 := entry_sizeOf_kids_lt e
        omega
      congr 1
      cases hdir : e.isDir
      · simp
      · simp only [if_pos rfl]
        exact ih ign (path ++ [e.name]) _ e.kids hsz

theorem attach_map {α β : Type} (l : List α) (f : α → β) :
    l.attach.map (fun x => f x.1) = l.map f := by
  conv_rhs => rw [← List.attach_map_subtype_val l]
  rw [List.map_map]
  rfl

theorem attach_all {α : Type} (l : List α) (f : α → Bool) :
    l.attach.all (fun x => f x.1) = l.all f := by
  rw [Bool.eq_iff_iff]
  simp only [List.all_eq_true, List.mem_attach, true_implies, Subtype.forall]

theorem attach_any {α : Type} (l : List α) (f : α → Bool) :
    l.attach.any (fun x => f x.1) = l.any f := by
  rw [Bool.eq_iff_iff]
  simp only [List.any_eq_true, List.mem_attach, true_and, Subtype.exists]
  constructor
  · rintro ⟨a, ha, hf⟩
    exact ⟨a, ha, hf⟩
  · rintro ⟨a, ha, hf⟩
    exact ⟨a, ha, hf⟩

theorem attach_filterMap {α β : Type} (l : List α) (f : α → Option β) :
    l.attach.filterMap (fun x => f x.1) = l.filterMap f := by
  conv_rhs => rw [← List.attach_map_subtype_val l]
  rw [List.filterMap_map]
  rfl

theorem entryLe_iff (a b : Entry) : entryLe a b ↔ twoKeyOrder a b := by
  unfold entryLe entryCmp twoKeyOrder
  cases ha : a.isDir <;> cases hb : b.isDir <;>
    simp [ha, hb, compare_le_iff_le]

theorem entryLe_total (a b : Entry) : entryLe a b ∨ entryLe b a := by
  rw [entryLe_iff, entryLe_iff]
  unfold twoKeyOrder
  cases ha : a.isDir <;> cases hb : b.isDir <;> simp [ha, hb] <;>
    exact le_total _ _

theorem entryLe_trans (a b c : Entry) : entryLe a b → entryLe b c → entryLe a c := by
  rw [entryLe_iff, entryLe_iff, entryLe_iff]
  unfold twoKeyOrder
  cases ha : a.isDir <;> cases hb : b.isDir <;> cases hc : c.isDir <;>
    simp [ha, hb, hc] <;>
    exact fun h1 h2 => le_trans h1 h2

/-! ### Claim theorems -/

/-- C9: an entry whose OS file name is not valid UTF-8 (its `to_str` is
`None`) is never hidden by the local-pattern filter, whatever the loaded
pattern set contains. -/
theorem c9_non_utf8_never_hidden :
    ∀ ignore_patterns : List String, should_ignore none ignore_patterns = false :=
  fun _ => rfl

/-- C4: the local-pattern filter hides an entry with UTF-8 base name `nm`
exactly when `nm` is literally (case-sensitively, as a whole name) one of
the loaded patterns; a pattern holding glob metacharacters such as
`*.swp` is compared literally and never expanded, so it does not hide
`file.swp` but does hide a file actually named `*.swp`. -/
theorem c4_literal_whole_name_match :
    ∀ (nm : String) (ignore_patterns : List String),
      (should_ignore (some nm) ignore_patterns = true ↔ nm ∈ ignore_patterns) ∧
      should_ignore (some "file.swp") ["*.swp"] = false ∧
      should_ignore (some "*.swp") ["*.swp"] = true := by
  intro nm ignore_patterns
  refine ⟨?_, by decide, by decide⟩
  simp only [should_ignore, Option.any_some, List.any_eq_true, beq_iff_eq]
  constructor
  · rintro ⟨p, hp, rfl⟩
    exact hp
  · intro h
    exact ⟨nm, h, rfl⟩

/-- C3: a render never touches an existing `.tree_ignore` file (whatever
its content), and on a directory without one it creates exactly that one
file, holding the default template, leaving every other file alone. -/
theorem c3_seed_create_once :
    (∀ (fs : DirFiles) (c : String), fs ".tree_ignore" = some c →
       print_directory_tree_seed fs = fs) ∧
    (∀ fs : DirFiles, fs ".tree_ignore" = none →
       (print_directory_tree_seed fs) ".tree_ignore" = some default_content ∧
       ∀ nm, nm ≠ ".tree_ignore" → (print_directory_tree_seed fs) nm = fs nm) := by
  constructor
  · intro fs c h
    simp [print_directory_tree_seed, h]
  · intro fs h
    constructor
    · simp [print_directory_tree_seed, h, create_default_ignore_file, writeFile]
    · intro nm hnm
      simp [print_directory_tree_seed, h, create_default_ignore_file, writeFile, hnm]

/-- Closed instance of `c3_seed_create_once`: an edited ignore file
survives a render byte for byte, and a fresh directory gets the default
template. -/
theorem c3_seed_create_once_witness :
    print_directory_tree_seed
        (fun k => if k = ".tree_ignore" then some "custom content" else none) =
      (fun k => if k = ".tree_ignore" then some "custom content" else none) ∧
    (print_directory_tree_seed (fun _ => none)) ".tree_ignore" = some default_content := by
  constructor
  · exact c3_seed_create_once.1 _ "custom content" (by simp)
  · exact (c3_seed_create_once.2 (fun _ => none) rfl).1

/-- C5: at every level the renderer emits the surviving entries in the
two-key order — all directories before all files, case-sensitive
lexicographic order of base names inside each group: the sorted list the
renderer walks is ordered by `twoKeyOrder` and is a permutation of the
filtered children; on the children {b_file.txt, a_file.txt, z_dir/,
m_dir/} of the spec example the emitted lines are m_dir, z_dir,
a_file.txt, b_file.txt. -/
theorem c5_two_key_sort :
    ∀ cs : List Entry,
      List.Sorted twoKeyOrder (sortEntries cs) ∧ (sortEntries cs).Perm cs ∧
      print_directory_tree_recursive_short [] [] ""
          [Entry.file "b_file.txt", Entry.file "a_file.txt",
           Entry.dir "z_dir" [], Entry.dir "m_dir" []] =
        ["├── m_dir", "├── z_dir", "├── a_file.txt", "└── b_file.txt"] := by
  intro cs
  refine ⟨?_, List.perm_insertionSort entryLe cs, ?_⟩
  · have hs := @List.sorted_insertionSort Entry entryLe _ ⟨entryLe_total⟩
      ⟨entryLe_trans⟩ cs
    exact hs.imp (fun h => (entryLe_iff _ _).mp h)
  · rw [← renderFuel_spec 100000 _ _ _ _ (by decide)]
    rfl

/-- C2 as written is refuted: the renderer never appends `/` to a
directory name.  Rendering a directory `d` emits the bare line `└── d`,
and no slash-suffixed line occurs in the output. -/
theorem c2_counterexample_no_slash :
    print_directory_tree_recursive_short [] [] "" [Entry.dir "d" []] = ["└── d"] ∧
    ¬ "└── d/" ∈ print_directory_tree_recursive_short [] [] "" [Entry.dir "d" []] := by
  have h : print_directory_tree_recursive_short [] [] "" [Entry.dir "d" []] = ["└── d"] := by
    rw [← renderFuel_spec 1000 _ _ _ _ (by decide)]
    rfl
  refine ⟨h, ?_⟩
  rw [h]
  decide

/-- C2 (amended): when the rendered directory is not itself suppressed,
the renderer emits, for the entry at position `i` of the sorted visible
list, exactly the line `prefix ++ connector ++ base name` — with the
corner connector `└── ` when `i` is the final position and the branch
connector `├── ` otherwise, and with no suffix appended to the name,
whether or not the entry is a directory — and recurses into directory
entries with the prefix extended by four blanks after a last entry and
by `│   ` otherwise. -/
theorem c2_emission_format :
    ∀ (ign : List (List String)) (path : List String) (pre : String)
      (cs sorted : List Entry),
      sorted = sortEntries (cs.filter (fun e => !(ign.contains (path ++ [e.name])))) →
      ¬ ign.contains path = true →
      print_directory_tree_recursive_short ign path pre cs =
        sorted.enum.flatMap (fun x =>
          (pre ++ (if x.1 = sorted.length - 1 then "└── " else "├── ") ++ x.2.name) ::
            (if x.2.isDir = true then
              print_directory_tree_recursive_short ign (path ++ [x.2.name])
                (pre ++ (if x.1 = sorted.length - 1 then "    " else "│   ")) x.2.kids
            else [])) := by
  intro ign path pre cs sorted hs hc
  rw [print_rec_unfold ign path pre cs sorted hs hc]
  apply flatMap_congr_mem
  rintro ⟨i, e⟩ hm
  by_cases hi : i = sorted.length - 1 <;>
    simp [connector, continuation, hi]

/-- Closed instance of `c2_emission_format` at a one-directory level. -/
theorem c2_emission_format_witness :
    print_directory_tree_recursive_short [] [] "" [Entry.dir "d" []] =
      (sortEntries ([Entry.dir "d" []].filter
          (fun e => !(([] : List (List String)).contains ([] ++ [e.name]))))).enum.flatMap
        (fun x =>
          ("" ++ (if x.1 = (sortEntries ([Entry.dir "d" []].filter
              (fun e => !(([] : List (List String)).contains ([] ++ [e.name]))))).length - 1
            then "└── " else "├── ") ++ x.2.name) ::
            (if x.2.isDir = true then
              print_directory_tree_recursive_short [] ([] ++ [x.2.name])
                ("" ++ (if x.1 = (sortEntries ([Entry.dir "d" []].filter
                    (fun e => !(([] : List (List String)).contains ([] ++ [e.name]))))).length - 1
                  then "    " else "│   ")) x.2.kids
            else [])) :=
  c2_emission_format [] [] "" [Entry.dir "d" []] _ rfl (by decide)

/-- C8: the symmetric difference handed to the renderer never contains
the root path, whatever the pattern set — the filtered walk never skips
the root of the walk — so the render always emits the root header line
and proceeds into the children of the root; concretely, a root whose own
base name is a loaded pattern is still rendered together with its
children. -/
theorem c8_root_never_hidden :
    ∀ (ignore_patterns : List String) (t : Entry) (d : String),
      ¬ ([] ∈ treeDiff ignore_patterns t) ∧
      print_directory_tree d ignore_patterns t =
        d :: print_directory_tree_recursive_short (treeDiff ignore_patterns t) [] "" t.kids ∧
      print_directory_tree "target" ["target"] (Entry.dir "target" [Entry.file "child"]) =
        ["target", "└── child"] := by
  intro ignore_patterns t d
  have hAll : ([] : List String) ∈ walkAllFrom [] t := by
    cases t <;> rw [walkAllFrom] <;> simp
  have hF : ([] : List String) ∈ walkFilteredFrom ignore_patterns [] t := by
    cases t <;> rw [walkFilteredFrom] <;> simp
  refine ⟨?_, rfl, ?_⟩
  · intro hmem
    simp only [treeDiff, walkSymmDiff, List.mem_append, List.mem_filter] at hmem
    rcases hmem with ⟨_, hb⟩ | ⟨_, hb⟩
    · have hc : (walkFilteredFrom ignore_patterns [] t).contains [] = true :=
        List.elem_eq_true_of_mem hF
      rw [hc] at hb
      simp at hb
    · have hc : (walkAllFrom [] t).contains [] = true :=
        List.elem_eq_true_of_mem hAll
      rw [hc] at hb
      simp at hb
  · have hdiff : treeDiff ["target"] (Entry.dir "target" [Entry.file "child"]) = [] := by
      simp [treeDiff, walkSymmDiff, walkAllFrom, walkFilteredFrom, should_ignore,
        Entry.name]
    rw [print_directory_tree, hdiff]
    rw [show (Entry.dir "target" [Entry.file "child"]).kids = [Entry.file "child"] from rfl]
    rw [← renderFuel_spec 100000 _ _ _ _ (by decide)]
    rfl

theorem fsnode_sizeOf_pos (t : FsNode) : 1 ≤ sizeOf t := by
  cases t <;> simp_arith [FsNode.file.sizeOf_spec, FsNode.symlink.sizeOf_spec,
    FsNode.dir.sizeOf_spec]

theorem sweep_good_bounded :
    ∀ (n : Nat) (t : FsNode), sizeOf t ≤ n → goodSweepTree t = true →
      sweepNode t = (eraseMarkerEntries t, countMarkerNonDirs t, 0) := by
  intro n
  induction n with
  | zero =>
    intro t ht _
    have := fsnode_sizeOf_pos t
    omega
  | succ n ih =>
    intro t ht hg
    match t with
    | .file nm rm =>
      rw [goodSweepTree] at hg
      rw [sweepNode, eraseMarkerEntries, countMarkerNonDirs]
      by_cases hm : (nm == ".tree_ignore") = true
      · have hrm : rm = true := by
          simp [hm] at hg
          exact hg
        simp [hm, hrm]
      · simp [hm]
    | .symlink nm =>
      rw [sweepNode, eraseMarkerEntries, countMarkerNonDirs]
      by_cases hm : (nm == ".tree_ignore") = true <;> simp [hm]
    | .dir nm rd cs =>
      rw [goodSweepTree] at hg
      simp only [Bool.and_eq_true, Bool.not_eq_true', List.all_eq_true] at hg
      obtain ⟨⟨hn, hrd⟩, hall⟩ := hg
      subst hrd
      have hrec : ∀ x : {y // y ∈ cs}, x ∈ cs.attach →
          sweepNode x.1 = (eraseMarkerEntries x.1, countMarkerNonDirs x.1, 0) := by
        intro x hxa
        have hsz : sizeOf x.1 ≤ n := by
          have h1 := List.sizeOf_lt_of_mem x.2
          simp only [FsNode.dir.sizeOf_spec] at ht
          omega
        exact ih x.1 hsz (hall x hxa)
      rw [sweepNode, eraseMarkerEntries, countMarkerNonDirs]
      simp only [hn, if_true, cond_true, if_pos rfl]
      rw [List.map_congr_left hrec]
      simp only [List.filterMap_map, List.map_map]
      simp only [Bool.false_eq_true, if_false, Function.comp]
      refine congrArg₂ Prod.mk ?_ (congrArg₂ Prod.mk ?_ ?_)
      · rfl
      · rfl
      · simp only [Nat.zero_add]
        exact List.sum_eq_zero (by intro x hx; simp at hx; obtain ⟨a, _, h⟩ := hx; omega)

theorem filterMap_congr_mem {α β : Type} {l : List α} {f g : α → Option β}
    (h : ∀ a ∈ l, f a = g a) : l.filterMap f = l.filterMap g := by
  induction l with
  | nil => rfl
  | cons a t ih =>
    rw [List.filterMap_cons, List.filterMap_cons, h a (List.mem_cons_self a t),
      ih (fun b hb => h b (List.mem_cons_of_mem a hb))]

theorem map_congr_mem {α β : Type} {l : List α} {f g : α → β}
    (h : ∀ a ∈ l, f a = g a) : l.map f = l.map g :=
  List.map_congr_left h

theorem erase_good_bounded :
    ∀ (n : Nat) (t : FsNode), sizeOf t ≤ n → goodSweepTree t = true →
      ∀ t', eraseMarkerEntries t = some t' →
        goodSweepTree t' = true ∧ countMarkerNonDirs t' = 0 := by
  intro n
  induction n with
  | zero =>
    intro t ht _
    have := fsnode_sizeOf_pos t
    omega
  | succ n ih =>
    intro t ht hg t' he
    match t with
    | .file nm rm =>
      rw [eraseMarkerEntries] at he
      by_cases hm : (nm == ".tree_ignore") = true
      · rw [if_pos hm] at he
        exact absurd he (by simp)
      · rw [if_neg hm] at he
        rw [Option.some.injEq] at he
        subst he
        refine ⟨hg, ?_⟩
        rw [countMarkerNonDirs]
        simp [Bool.not_eq_true] at hm
        simp [hm]
    | .symlink nm =>
      rw [eraseMarkerEntries] at he
      by_cases hm : (nm == ".tree_ignore") = true
      · rw [if_pos hm] at he
        exact absurd he (by simp)
      · rw [if_neg hm] at he
        rw [Option.some.injEq] at he
        subst he
        refine ⟨by rw [goodSweepTree], ?_⟩
        rw [countMarkerNonDirs]
        simp [Bool.not_eq_true] at hm
        simp [hm]
    | .dir nm rd cs =>
      rw [goodSweepTree] at hg
      simp only [Bool.and_eq_true, Bool.not_eq_true', List.all_eq_true] at hg
      obtain ⟨⟨hn, hrd⟩, hall⟩ := hg
      rw [eraseMarkerEntries, Option.some.injEq] at he
      subst he
      have hkid : ∀ y ∈ cs.attach.filterMap (fun x => eraseMarkerEntries x.1),
          goodSweepTree y = true ∧ countMarkerNonDirs y = 0 := by
        intro y hy
        rw [List.mem_filterMap] at hy
        obtain ⟨x, hx, hxy⟩ := hy
        have hsz : sizeOf x.1 ≤ n := by
          have h1 := List.sizeOf_lt_of_mem x.2
          simp only [FsNode.dir.sizeOf_spec] at ht
          omega
        exact ih x.1 hsz (hall x hx) y hxy
      constructor
      · rw [goodSweepTree]
        simp only [Bool.and_eq_true, Bool.not_eq_true', List.all_eq_true]
        refine ⟨⟨hn, hrd⟩, ?_⟩
        intro y _
        exact (hkid y.1 y.2).1
      · rw [countMarkerNonDirs]
        apply List.sum_eq_zero
        intro v hv
        rw [List.mem_map] at hv
        obtain ⟨y, hy, hyv⟩ := hv
        rw [← hyv]
        exact (hkid y.1 y.2).2

theorem sweep_no_marker_bounded :
    ∀ (n : Nat) (t : FsNode), sizeOf t ≤ n → hasMarkerNamed t = false →
      sweepRemaining t = some t ∧ sweepRemoved t = 0 := by
  intro n
  induction n with
  | zero =>
    intro t ht _
    have := fsnode_sizeOf_pos t
    omega
  | succ n ih =>
    intro t ht h
    match t with
    | .file nm rm =>
      rw [hasMarkerNamed] at h
      simp only [sweepRemaining, sweepRemoved]
      rw [sweepNode]
      simp [h]
    | .symlink nm =>
      rw [hasMarkerNamed] at h
      simp only [sweepRemaining, sweepRemoved]
      rw [sweepNode]
      simp [h]
    | .dir nm rd cs =>
      rw [hasMarkerNamed] at h
      simp only [Bool.or_eq_false_iff, List.any_eq_false] at h
      obtain ⟨hn, hkids⟩ := h
      cases rd
      · simp only [sweepRemaining, sweepRemoved]
        rw [sweepNode]
        simp
      · have hrec : ∀ x : {y // y ∈ cs}, x ∈ cs.attach →
            sweepRemaining x.1 = some x.1 ∧ sweepRemoved x.1 = 0 := by
          intro x hxa
          have hsz : sizeOf x.1 ≤ n := by
            have h1 := List.sizeOf_lt_of_mem x.2
            simp only [FsNode.dir.sizeOf_spec] at ht
            omega
          exact ih x.1 hsz (by simpa using hkids x hxa)
        simp only [sweepRemaining, sweepRemoved]
        rw [sweepNode]
        rw [if_pos rfl]
        constructor
        · dsimp only
          rw [Option.some.injEq]
          congr 1
          rw [List.filterMap_map]
          trans (cs.attach.filterMap (fun x => some x.1))
          · exact filterMap_congr_mem (fun x hx => (hrec x hx).1)
          · rw [attach_filterMap]
            exact List.filterMap_some cs
        · dsimp only
          rw [List.map_map]
          apply List.sum_eq_zero
          intro v hv
          rw [List.mem_map] at hv
          obtain ⟨x, hx, hxv⟩ := hv
          rw [← hxv]
          exact (hrec x hx).2

theorem sweep_remaining_spec_bounded :
    ∀ (n : Nat) (t : FsNode), sizeOf t ≤ n →
      sweepRemaining t = sweepSpecRemaining t := by
  intro n
  induction n with
  | zero =>
    intro t ht
    have := fsnode_sizeOf_pos t
    omega
  | succ n ih =>
    intro t ht
    match t with
    | .file nm rm =>
      simp only [sweepRemaining]
      rw [sweepNode, sweepSpecRemaining]
      by_cases hm : (nm == ".tree_ignore") = true
      · cases rm <;> simp [hm]
      · simp [hm]
    | .symlink nm =>
      simp only [sweepRemaining]
      rw [sweepNode, sweepSpecRemaining]
      by_cases hm : (nm == ".tree_ignore") = true <;> simp [hm]
    | .dir nm rd cs =>
      have hrec : ∀ x : {y // y ∈ cs}, x ∈ cs.attach →
          (sweepNode x.1).1 = sweepSpecRemaining x.1 := by
        intro x _
        have hsz : sizeOf x.1 ≤ n := by
          have h1 := List.sizeOf_lt_of_mem x.2
          simp only [FsNode.dir.sizeOf_spec] at ht
          omega
        exact ih x.1 hsz
      simp only [sweepRemaining]
      rw [sweepNode, sweepSpecRemaining]
      cases rd
      · simp
      · rw [if_pos rfl, if_pos rfl]
        dsimp only
        rw [Option.some.injEq]
        congr 1
        rw [List.filterMap_map]
        exact filterMap_congr_mem hrec

/-- C1 as written is refuted: here the sweep meets one marker file whose
deletion fails (it is not removable) and then another whose deletion
succeeds; instead of aborting with a propagated error it finishes with
`Ok`, having removed the second file, counted 1 removal and logged 1
warning. -/
theorem c1_counterexample_deletion_failure_not_fatal :
    clear_ignore_files (FsNode.dir "root" true
        [FsNode.dir "a" true [FsNode.file ".tree_ignore" false],
         FsNode.dir "b" true [FsNode.file ".tree_ignore" true]]) =
      Except.ok (some (FsNode.dir "root" true
        [FsNode.dir "a" true [FsNode.file ".tree_ignore" false],
         FsNode.dir "b" true []]), 1, 1) := by
  simp [clear_ignore_files, FsNode.isDirNode, sweepNode]

/-- C1 (amended): the sweep treats BOTH failure kinds as non-fatal.  Once
the root is validated as a directory the sweep always returns `Ok`; on a
readable directory the removal and warning counts are the sums over the
children, so a failure inside one child never stops the processing of its
siblings; an unreadable directory contributes one logged warning and its
children are skipped, while the walk continues elsewhere; a marker file
whose deletion fails is kept, not counted as removed, and adds one
warning — the sweep never aborts because of it. -/
theorem c1_failures_are_warnings :
    ∀ (nm : String) (rd : Bool) (cs : List FsNode),
      (clear_ignore_files (FsNode.dir nm rd cs)).isOk = true ∧
      (rd = true →
        sweepRemoved (FsNode.dir nm rd cs) = (cs.map sweepRemoved).sum ∧
        sweepErrors (FsNode.dir nm rd cs) =
          (if nm == ".tree_ignore" then 1 else 0) + (cs.map sweepErrors).sum) ∧
      (rd = false →
        sweepRemoved (FsNode.dir nm rd cs) = 0 ∧
        sweepErrors (FsNode.dir nm rd cs) =
          (if nm == ".tree_ignore" then 1 else 0) + 1) ∧
      sweepNode (FsNode.file ".tree_ignore" false) =
        (some (FsNode.file ".tree_ignore" false), 0, 1) := by
  intro nm rd cs
  refine ⟨by simp [clear_ignore_files, FsNode.isDirNode, Except.isOk, Except.toBool], ?_, ?_, by simp [sweepNode]⟩
  · intro hrd
    subst hrd
    constructor
    · simp only [sweepRemoved]
      rw [sweepNode, if_pos rfl]
      dsimp only
      rw [List.map_map]
      rw [show ((fun r : Option FsNode × Nat × Nat => r.2.1) ∘
          (fun x : {y // y ∈ cs} => sweepNode x.1)) =
          (fun x : {y // y ∈ cs} => sweepRemoved x.1) from rfl]
      rw [attach_map]
    · simp only [sweepErrors]
      rw [sweepNode, if_pos rfl]
      dsimp only
      rw [List.map_map]
      rw [show ((fun r : Option FsNode × Nat × Nat => r.2.2) ∘
          (fun x : {y // y ∈ cs} => sweepNode x.1)) =
          (fun x : {y // y ∈ cs} => sweepErrors x.1) from rfl]
      rw [attach_map]
  · intro hrd
    subst hrd
    constructor
    · simp only [sweepRemoved]
      rw [sweepNode]
      simp
    · simp only [sweepErrors]
      rw [sweepNode]
      simp

/-- Closed instance of `c1_failures_are_warnings`. -/
theorem c1_failures_are_warnings_witness :
    (clear_ignore_files (FsNode.dir "r" true [FsNode.file ".tree_ignore" true])).isOk = true ∧
    sweepRemoved (FsNode.dir "r" true [FsNode.file ".tree_ignore" true]) =
      ([FsNode.file ".tree_ignore" true].map sweepRemoved).sum ∧
    sweepRemoved (FsNode.dir "u" false [FsNode.file ".tree_ignore" true]) = 0 ∧
    sweepErrors (FsNode.dir "u" false [FsNode.file ".tree_ignore" true]) =
      (if "u" == ".tree_ignore" then 1 else 0) + 1 := by
  refine ⟨(c1_failures_are_warnings "r" true [FsNode.file ".tree_ignore" true]).1,
    ((c1_failures_are_warnings "r" true [FsNode.file ".tree_ignore" true]).2.1 rfl).1,
    ((c1_failures_are_warnings "u" false [FsNode.file ".tree_ignore" true]).2.2.1 rfl).1,
    ((c1_failures_are_warnings "u" false [FsNode.file ".tree_ignore" true]).2.2.1 rfl).2⟩

/-- C6 as written is refuted: this tree contains exactly N = 0 regular
files named `.tree_ignore`, the sweep completes without a single warning
— fully successful — and yet it returns the count 1, because the
marker-named symbolic link is deleted and counted together with deleted
files.  So a successful sweep of a tree with exactly N marker files need
not return N, and the count is not restricted to files. -/
theorem c6_counterexample_symlink_inflates_count :
    clear_ignore_files (FsNode.dir "root" true [FsNode.symlink ".tree_ignore"]) =
      Except.ok (some (FsNode.dir "root" true []), 1, 0) ∧
    countMarkerFiles (FsNode.dir "root" true [FsNode.symlink ".tree_ignore"]) = 0 := by
  constructor
  · simp [clear_ignore_files, FsNode.isDirNode, sweepNode]
  · simp [countMarkerFiles]

/-- C6 (amended): on every tree whose marker-named entries are removable
non-directories (regular files or symbolic links) and whose directories
are all readable and not marker-named — exactly the situation in which a
sweep succeeds without one warning — the sweep deletes exactly the
marker-named non-directory entries, returns their number
`countMarkerNonDirs` as the count, logs no warning, and an immediately
repeated sweep of the resulting tree reports 0. -/
theorem c6_sweep_removes_exactly_n :
    ∀ t : FsNode, goodSweepTree t = true → t.isDirNode = true →
      clear_ignore_files t = Except.ok (eraseMarkerEntries t, countMarkerNonDirs t, 0) ∧
      ∀ t', eraseMarkerEntries t = some t' →
        (clear_ignore_files t').isOk = true ∧ sweepRemoved t' = 0 := by
  intro t hg hd
  constructor
  · rw [clear_ignore_files, if_pos hd, sweep_good_bounded (sizeOf t) t le_rfl hg]
  · intro t' he
    have h2 := erase_good_bounded (sizeOf t) t le_rfl hg t' he
    have hd' : t'.isDirNode = true := by
      match t, hd with
      | .dir nm rd cs, _ =>
        rw [eraseMarkerEntries, Option.some.injEq] at he
        rw [← he]
        rfl
    constructor
    · rw [clear_ignore_files, if_pos hd']
      rfl
    · have h3 := sweep_good_bounded (sizeOf t') t' le_rfl h2.1
      simp only [sweepRemoved, h3]
      exact h2.2

/-- Closed instance of `c6_sweep_removes_exactly_n`: a root holding one
marker file (inside a subdirectory), one marker symbolic link and one
ordinary file; the sweep removes exactly the two marker-named
non-directory entries and reports 2, and sweeping the result reports 0. -/
theorem c6_sweep_removes_exactly_n_witness :
    clear_ignore_files (FsNode.dir "root" true
        [FsNode.dir "a" true [FsNode.file ".tree_ignore" true],
         FsNode.symlink ".tree_ignore", FsNode.file "data.txt" true]) =
      Except.ok (some (FsNode.dir "root" true
        [FsNode.dir "a" true [], FsNode.file "data.txt" true]), 2, 0) ∧
    sweepRemoved (FsNode.dir "root" true
        [FsNode.dir "a" true [], FsNode.file "data.txt" true]) = 0 := by
  have hg : goodSweepTree (FsNode.dir "root" true
      [FsNode.dir "a" true [FsNode.file ".tree_ignore" true],
       FsNode.symlink ".tree_ignore", FsNode.file "data.txt" true]) = true := by
    simp [goodSweepTree]
  have h := c6_sweep_removes_exactly_n (FsNode.dir "root" true
      [FsNode.dir "a" true [FsNode.file ".tree_ignore" true],
       FsNode.symlink ".tree_ignore", FsNode.file "data.txt" true]) hg rfl
  have he : eraseMarkerEntries (FsNode.dir "root" true
      [FsNode.dir "a" true [FsNode.file ".tree_ignore" true],
       FsNode.symlink ".tree_ignore", FsNode.file "data.txt" true]) =
      some (FsNode.dir "root" true
        [FsNode.dir "a" true [], FsNode.file "data.txt" true]) := by
    simp [eraseMarkerEntries]
  have hc : countMarkerNonDirs (FsNode.dir "root" true
      [FsNode.dir "a" true [FsNode.file ".tree_ignore" true],
       FsNode.symlink ".tree_ignore", FsNode.file "data.txt" true]) = 2 := by
    simp [countMarkerNonDirs]
  refine ⟨?_, (h.2 _ he).2⟩
  rw [h.1, he, hc]

/-- C7 as written is refuted: a symbolic link named exactly
`.tree_ignore` is removed by the sweep (`fs::remove_file` unlinks the
link itself), counted as one removal. -/
theorem c7_counterexample_symlink_deleted :
    clear_ignore_files (FsNode.dir "r" true [FsNode.symlink ".tree_ignore"]) =
      Except.ok (some (FsNode.dir "r" true []), 1, 0) := by
  simp [clear_ignore_files, FsNode.isDirNode, sweepNode]

/-- C7 (amended): what a sweep leaves on disk is, for EVERY tree, exactly
the spec-side `sweepSpecRemaining` — so a directory is never deleted, an
entry whose base name differs from `.tree_ignore` is never deleted, and
the entries deleted are exactly the non-directory entries (regular files
and symbolic links alike) named `.tree_ignore` whose removal succeeds,
with everything else left structurally unchanged.  In addition: every
directory survives as a directory with the same name and flag; a tree
containing no marker-named entry at all is left completely unchanged with
nothing counted; and concretely, near-miss names such as `tree_ignore`
and `.tree_ignoreX` survive, a marker-named directory survives, a
marker-named file whose removal fails survives, while a removable
marker file and a marker symbolic link are deleted. -/
theorem c7_only_marker_nondirs_deleted :
    (∀ t : FsNode, sweepRemaining t = sweepSpecRemaining t) ∧
    (∀ (nm : String) (rd : Bool) (cs : List FsNode), ∃ cs',
        sweepRemaining (FsNode.dir nm rd cs) = some (FsNode.dir nm rd cs')) ∧
    (∀ t : FsNode, hasMarkerNamed t = false →
        sweepRemaining t = some t ∧ sweepRemoved t = 0) ∧
    sweepRemaining (FsNode.file ".tree_ignore" true) = none ∧
    sweepRemaining (FsNode.symlink ".tree_ignore") = none ∧
    sweepRemaining (FsNode.file ".tree_ignore" false) =
      some (FsNode.file ".tree_ignore" false) ∧
    sweepRemaining (FsNode.file "tree_ignore" true) = some (FsNode.file "tree_ignore" true) ∧
    sweepRemaining (FsNode.file ".tree_ignoreX" true) =
      some (FsNode.file ".tree_ignoreX" true) ∧
    sweepRemaining (FsNode.dir ".tree_ignore" true []) =
      some (FsNode.dir ".tree_ignore" true []) := by
  refine ⟨fun t => sweep_remaining_spec_bounded (sizeOf t) t le_rfl, ?_,
    fun t h => sweep_no_marker_bounded (sizeOf t) t le_rfl h,
    by simp [sweepRemaining, sweepNode], by simp [sweepRemaining, sweepNode],
    by simp [sweepRemaining, sweepNode], by simp [sweepRemaining, sweepNode],
    by simp [sweepRemaining, sweepNode], by simp [sweepRemaining, sweepNode]⟩
  intro nm rd cs
  cases rd
  · refine ⟨cs, ?_⟩
    simp only [sweepRemaining]
    rw [sweepNode]
    simp
  · refine ⟨((cs.attach.map (fun x => sweepNode x.1)).filterMap (fun r => r.1)), ?_⟩
    simp only [sweepRemaining]
    rw [sweepNode, if_pos rfl]

/-- Closed instance of `c7_only_marker_nondirs_deleted`, using both of
its hypothesis-bearing parts: on a tree that does contain a marker file
next to an ordinary file, the remaining tree is the spec-side erasure —
the sibling `data.txt` survives — and a marker-free tree is returned
untouched with count 0. -/
theorem c7_only_marker_nondirs_deleted_witness :
    sweepRemaining (FsNode.dir "root" true
        [FsNode.file ".tree_ignore" true, FsNode.file "data.txt" true]) =
      sweepSpecRemaining (FsNode.dir "root" true
        [FsNode.file ".tree_ignore" true, FsNode.file "data.txt" true]) ∧
    sweepRemaining (FsNode.dir "clean" true [FsNode.file "a" true]) =
      some (FsNode.dir "clean" true [FsNode.file "a" true]) ∧
    sweepRemoved (FsNode.dir "clean" true [FsNode.file "a" true]) = 0 :=
  ⟨c7_only_marker_nondirs_deleted.1 (FsNode.dir "root" true
      [FsNode.file ".tree_ignore" true, FsNode.file "data.txt" true]),
    (c7_only_marker_nondirs_deleted.2.2.1 (FsNode.dir "clean" true [FsNode.file "a" true])
      (by simp [hasMarkerNamed])).1,
    (c7_only_marker_nondirs_deleted.2.2.1 (FsNode.dir "clean" true [FsNode.file "a" true])
      (by simp [hasMarkerNamed])).2⟩

/-- C10: the renderer recurses into every surviving entry whose path
resolves to a directory, so in particular into a symbolic link whose
target is a directory; an infinite chain of such recursive calls is
impossible whenever the reachable portion of the resolved view is finite
(every call step appends one path segment, so an infinite chain would
visit infinitely many distinct paths); and on the one-symlink loop view
an infinite call chain from the root does exist, so the recursion is
total only under that finiteness (equivalently acyclicity) precondition. -/
theorem c10_termination_guard :
    (∀ (fs : FsView) (ign : List (List String)) (p : List String) (c : String),
        ¬ p ∈ ign → c ∈ fs.childrenAt p → ¬ (p ++ [c]) ∈ ign →
        fs.kindAt (p ++ [c]) = PathKind.symlinkToDir →
        rendererCallStep fs ign p (p ++ [c])) ∧
    (∀ (fs : FsView) (ign : List (List String)) (root : List String),
        Set.Finite {q | Relation.ReflTransGen (rendererCallStep fs ign) root q} →
        ¬ infiniteCallChain fs ign root) ∧
    infiniteCallChain loopView [] [] := by
  refine ⟨?_, ?_, ?_⟩
  · intro fs ign p c h1 h2 h3 h4
    exact ⟨h1, c, h2, rfl, h3, by rw [h4]; rfl⟩
  · rintro fs ign root hfin ⟨f, h0, hstep⟩
    have hlen : ∀ n, (f n).length = root.length + n := by
      intro n
      induction n with
      | zero => rw [h0]; omega
      | succ n ih =>
        obtain ⟨_, c, _, hq, _⟩ := hstep n
        rw [hq, List.length_append, ih]
        simp
        omega
    have hinj : Function.Injective f := by
      intro a b hab
      have := hlen a
      rw [hab, hlen b] at this
      omega
    have hmem : ∀ n, f n ∈ {q | Relation.ReflTransGen (rendererCallStep fs ign) root q} := by
      intro n
      induction n with
      | zero => rw [h0]; exact Relation.ReflTransGen.refl
      | succ n ih => exact Relation.ReflTransGen.tail ih (hstep n)
    exact (Set.infinite_of_injective_forall_mem hinj hmem) hfin
  · refine ⟨fun n => List.replicate n "loop", rfl, ?_⟩
    intro n
    dsimp only
    refine ⟨by simp, "loop", by simp [loopView], ?_, by simp, ?_⟩
    · rw [List.replicate_succ']
    · simp [loopView, pathIsDir, List.replicate_succ]

/-- Closed instance of `c10_termination_guard`: the loop view recursion
does step from the root through the directory symlink, and on a view with
no children at all there is no infinite call chain. -/
theorem c10_termination_guard_witness :
    rendererCallStep loopView [] [] (([] : List String) ++ ["loop"]) ∧
    ¬ infiniteCallChain ⟨fun _ => PathKind.file, fun _ => []⟩ [] [] := by
  constructor
  · exact c10_termination_guard.1 loopView [] [] "loop" (by simp) (by simp [loopView])
      (by simp) (by simp [loopView])
  · apply c10_termination_guard.2.1 ⟨fun _ => PathKind.file, fun _ => []⟩ [] []
    have hsub : {q | Relation.ReflTransGen
        (rendererCallStep ⟨fun _ => PathKind.file, fun _ => []⟩ []) [] q} ⊆ {[]} := by
      intro q hq
      induction hq with
      | refl => rfl
      | tail _ hstep _ =>
        obtain ⟨_, c, hc, _⟩ := hstep
        exact absurd hc (List.not_mem_nil c)
    exact Set.Finite.subset (Set.finite_singleton _) hsub
